import Mathlib

/-!
Verification development for the NSE Bhavcopy corporate-action pipeline.

The pipeline's core components are shallowly embedded here:

* the ratio parser and factor formulas of the corporate-action engine
  (source file: 3.2_corporate_action_engine.py);
* the backward adjustment applier and its incremental gate
  (source file: 4_Update_Adjustment_Prices.py);
* the per-symbol daily-bar ingestor (source file: 2_Script_Wise_Updater.py,
  ScriptWiseUpdater.process_updates);
* the corporate-action extraction pipeline's ordering and determinism
  (source file: 3.4_generate_adjustments.py);
* the recompute gatekeepers of 3.4_generate_adjustments.py and
  4_Update_Adjustment_Prices.py.

Python floats are modelled as exact rationals, and the parsed trading dates
of the ingestor and the applier as natural numbers (any order-isomorphic
encoding of dates); the extraction stage never parses its exDate column, so
there it stays the raw string the code sorts.  CSV files are modelled by
their table contents; writing a table to a file is deterministic, so equality
of modelled contents corresponds to byte-identical files.
-/

/-! ### Ratio parsing (3.2_corporate_action_engine.py, parse_ratio, lines 41-52)

Python's str.split(':') is modelled by splitOnChar, and the float(...)
constructor by parseFloatChars, which accepts the decimal forms float()
accepts (optional surrounding whitespace, optional sign, digits with at most
one point, at least one digit); the exponent/inf/nan forms never produced by
the pipeline's ratio strings are outside the modelled grammar and map to
none, as float(...) maps the strings relevant here. -/

def splitOnChar (c : Char) : List Char → List (List Char)
  | [] => [[]]
  | x :: xs =>
    let r := splitOnChar c xs
    if x = c then [] :: r
    else
      match r with
      | [] => [[x]]
      | h :: t => (x :: h) :: t

def digitsVal (cs : List Char) : ℕ :=
  cs.foldl (fun n c => 10 * n + (c.toNat - 48)) 0

def stripChars (cs : List Char) : List Char :=
  ((cs.dropWhile Char.isWhitespace).reverse.dropWhile Char.isWhitespace).reverse

def parseFloatChars (cs : List Char) : Option ℚ :=
  let cs := stripChars cs
  let sgn : ℚ :=
    match cs with
    | '-' :: _ => -1
    | _ => 1
  let cs :=
    match cs with
    | '-' :: r => r
    | '+' :: r => r
    | r => r
  let intPart := cs.takeWhile Char.isDigit
  let rest := cs.dropWhile Char.isDigit
  match rest with
  | [] => if intPart.isEmpty then none else some (sgn * digitsVal intPart)
  | '.' :: frac =>
    if frac.all Char.isDigit ∧ (intPart ≠ [] ∨ frac ≠ []) then
      some (sgn * ((digitsVal intPart : ℚ) + (digitsVal frac : ℚ) / (10 : ℚ) ^ frac.length))
    else none
  | _ => none

/-- parse_ratio: split the string on the colon and convert the first two
fields with float(...); a missing second field (IndexError) or an
unconvertible field (ValueError) yields the None-pair, modelled as none.
Fields after the second are ignored, exactly as in the source. -/
def parse_ratio (s : String) : Option (ℚ × ℚ) :=
  match splitOnChar ':' s.toList with
  | p0 :: p1 :: _ =>
    match parseFloatChars p0, parseFloatChars p1 with
    | some a, some b => some (a, b)
    | _, _ => none
  | _ => none

/-- Result record of calculate_split and calculate_bonus (the returned dict's
numeric fields; the action tag and description string carry no extra data). -/
structure CAResult where
  price_multiplier : ℚ
  qty_multiplier : ℚ
deriving DecidableEq, Repr

/-- calculate_split (3.2_corporate_action_engine.py, lines 54-82):
the guard `if not a or not b: return {}` rejects a failed parse and any zero
component; otherwise price_multiplier = a / b and qty_multiplier = b / a. -/
def calculate_split (r : String) : Option CAResult :=
  match parse_ratio r with
  | none => none
  | some (a, b) =>
    if a = 0 ∨ b = 0 then none
    else some ⟨a / b, b / a⟩

/-- calculate_bonus (3.2_corporate_action_engine.py, lines 84-114):
parse_ratio yields (bonus, held); the same zero/parse guard applies;
price_multiplier = held / (held + bonus), qty_multiplier = (held + bonus) / held. -/
def calculate_bonus (r : String) : Option CAResult :=
  match parse_ratio r with
  | none => none
  | some (bonus, held) =>
    if bonus = 0 ∨ held = 0 then none
    else some ⟨held / (held + bonus), (held + bonus) / held⟩

/-- Result record of calculate_rights (numeric fields of the returned dict). -/
structure RightsResult where
  price_multiplier : ℚ
  qty_multiplier_subscribed : ℚ
  terp : ℚ
deriving DecidableEq, Repr

/-- calculate_rights (3.2_corporate_action_engine.py, lines 116-150):
parse_ratio yields (rights_shares, held_shares); with a := held_shares,
b := rights_shares, p := market price and r := issue price,
terp = (a*p + b*r) / (a + b) and price_multiplier = terp / p. -/
def calculate_rights (ratio : String) (issue_price market_price_cum_rights : ℚ) :
    Option RightsResult :=
  match parse_ratio ratio with
  | none => none
  | some (rights_shares, held_shares) =>
    if rights_shares = 0 ∨ held_shares = 0 then none
    else
      let b := rights_shares
      let a := held_shares
      let p := market_price_cum_rights
      let r := issue_price
      let terp := (a * p + b * r) / (a + b)
      some ⟨terp / p, (a + b) / a, terp⟩

/-- Modelled from the spec's words, for comparison with parse_ratio only:
a ratio string "of the form A:B with two numeric parts" splits on the colon
into exactly two fields, each convertible to a number. -/
def ratioHasTwoNumericParts (s : String) : Bool :=
  match splitOnChar ':' s.toList with
  | [p0, p1] => (parseFloatChars p0).isSome && (parseFloatChars p1).isSome
  | _ => false

/-! ### Stable insertion sort

A structurally recursive sort modelling the deterministic sorts performed by
pandas sort_values in 4_Update_Adjustment_Prices.py (by date) and
3.4_generate_adjustments.py (by symbol then ex_date). -/

def insertLe {α : Type} (le : α → α → Bool) (a : α) : List α → List α
  | [] => [a]
  | b :: l => if le a b then a :: b :: l else b :: insertLe le a l

def sortLe {α : Type} (le : α → α → Bool) : List α → List α
  | [] => []
  | a :: l => insertLe le a (sortLe le l)

/-! ### Backward adjustment applier (4_Update_Adjustment_Prices.py)

A Bar is one row of a per-symbol ledger file; the four price columns and the
volume column ttl_trd_qnty are the columns the applier touches (lines
125 and 144; the remaining columns pass through untouched and are omitted).
An adjustment-file row carries an ex_date that pd.to_datetime may have turned
into NaT (modelled as none, skipped at line 118) and a price_multiplier. -/

structure Bar where
  date : ℕ
  open_price : ℚ
  high_price : ℚ
  low_price : ℚ
  close_price : ℚ
  ttl_trd_qnty : ℚ
deriving DecidableEq, Repr

structure AdjFactor where
  ex_date : Option ℕ
  price_multiplier : ℚ
deriving DecidableEq, Repr

/-- One masked update (lines 137-150): prices multiplied by the factor,
volume divided by it.  The date column is never written. -/
def scaleBar (m : ℚ) (b : Bar) : Bar :=
  { b with
    open_price := b.open_price * m
    high_price := b.high_price * m
    low_price := b.low_price * m
    close_price := b.close_price * m
    ttl_trd_qnty := b.ttl_trd_qnty / m }

/-- One iteration of the adjustment loop (lines 114-150): a null ex_date is
skipped; otherwise rows strictly before the ex_date are scaled, under the
`if mask.any()` guard of line 123. -/
def applyFactor (led : List Bar) (f : AdjFactor) : List Bar :=
  match f.ex_date with
  | none => led
  | some d =>
    if led.any (fun b => b.date < d) then
      led.map (fun b => if b.date < d then scaleBar f.price_multiplier b else b)
    else led

/-- The full adjustment loop over the symbol's factor rows, in file order. -/
def adjustLedger (factors : List AdjFactor) (led : List Bar) : List Bar :=
  factors.foldl applyFactor led

/-- The multiplier a single factor row contributes to a bar dated d. -/
def factorMult (f : AdjFactor) (d : ℕ) : ℚ :=
  match f.ex_date with
  | none => 1
  | some e => if d < e then f.price_multiplier else 1

/-- The product of exactly those price_multipliers whose (non-null) ex_date is
strictly greater than the bar's date. -/
def effMult (factors : List AdjFactor) (d : ℕ) : ℚ :=
  (factors.filterMap (fun f =>
    match f.ex_date with
    | none => none
    | some e => if d < e then some f.price_multiplier else none)).prod

/-- Round to two decimals, ties to even, as DataFrame.round(2) does (line 160).
The development never evaluates this at an exact tie, where the float
rounding of the source could differ from any exact-rational model. -/
def round2 (q : ℚ) : ℚ :=
  let x := q * 100
  let f : ℤ := ⌊x⌋
  let r : ℚ := x - f
  let n : ℤ :=
    if r < 1 / 2 then f
    else if 1 / 2 < r then f + 1
    else if f % 2 = 0 then f else f + 1
  (n : ℚ) / 100

/-- The final price rounding of lines 158-160, applied to every written row,
adjusted or not.  ttl_trd_qnty contains no 'price' and is not rounded. -/
def roundBar (b : Bar) : Bar :=
  { b with
    open_price := round2 b.open_price
    high_price := round2 b.high_price
    low_price := round2 b.low_price
    close_price := round2 b.close_price }

def barDateLe (b1 b2 : Bar) : Bool :=
  b1.date ≤ b2.date

/-- What update_adjustment_prices writes for one symbol (lines 88-162): sort
the raw rows by date, apply every factor row of that symbol, round prices.
A symbol absent from the adjustment file has factors = [] and the adjustment
loop is not entered (line 103), which coincides with folding over []. -/
def update_adjustment_prices_symbol (factors : List AdjFactor) (raw : List Bar) : List Bar :=
  (adjustLedger factors (sortLe barDateLe raw)).map roundBar

/-- Stored state of one adjusted ledger file: its rows and its mtime. -/
structure ApplierRun where
  ledger : List Bar
  out_mtime : ℕ
deriving DecidableEq, Repr

/-- One run of the applier on one symbol, with the incremental gate of lines
69-86: a missing output file is always processed; an existing one is skipped
exactly when the raw input and the adjustment file are both strictly older
than it.  Processing recomputes from the raw ledger and the factor set alone
and stamps the file with the current time. -/
def applierStep (raw : List Bar) (factors : List AdjFactor)
    (raw_mtime adj_mtime now : ℕ) (prev : Option ApplierRun) : ApplierRun :=
  match prev with
  | none => ⟨update_adjustment_prices_symbol factors raw, now⟩
  | some s =>
    if raw_mtime < s.out_mtime ∧ adj_mtime < s.out_mtime then s
    else ⟨update_adjustment_prices_symbol factors raw, now⟩

/-! ### Daily batch ingestor (2_Script_Wise_Updater.py, process_updates)

One daily bhavcopy file covers one trading date; a row carries a symbol, a
series tag and the bar payload (close_price stands for the payload columns,
which are all carried identically).  process_updates filters rows to the
tracked universe and the EQ series (lines 285-290), then appends a row only
when the file's date is strictly greater than the symbol's recorded last
date, updating that date in memory (lines 316-321).  The per-symbol buffers
written once at the end (lines 330-351) receive rows in encounter order, so
buffered writing equals direct appending, which is how it is modelled. -/

structure InRow where
  symbol : String
  series : String
  close_price : ℚ
deriving DecidableEq, Repr

structure LedgerRow where
  date : ℕ
  close_price : ℚ
deriving DecidableEq, Repr

structure IngestState where
  last_dates : String → ℕ
  ledgers : String → List LedgerRow

/-- Lines 316-321: one row of one daily file. -/
def ingestRow (d : ℕ) (st : IngestState) (r : InRow) : IngestState :=
  if st.last_dates r.symbol < d then
    { last_dates := fun s => if s = r.symbol then d else st.last_dates s
      ledgers := fun s =>
        if s = r.symbol then st.ledgers s ++ [⟨d, r.close_price⟩] else st.ledgers s }
  else st

/-- One daily file: filter to the tracked universe and the EQ series, then
process each surviving row in order. -/
def ingestFile (tracked : List String) (st : IngestState) (d : ℕ) (rows : List InRow) :
    IngestState :=
  (rows.filter (fun r => tracked.contains r.symbol && r.series == "EQ")).foldl (ingestRow d) st

/-- A whole run over a sequence of daily files (date, rows). -/
def ingestFiles (tracked : List String) (st : IngestState) (files : List (ℕ × List InRow)) :
    IngestState :=
  files.foldl (fun s f => ingestFile tracked s f.1 f.2) st

/-- The ledger invariant maintained by ingestion: per symbol, dates strictly
increase along the file, and none exceeds the recorded last date. -/
def LedgerInv (st : IngestState) : Prop :=
  ∀ sym : String,
    ((st.ledgers sym).map LedgerRow.date).Pairwise (· < ·) ∧
    ∀ b ∈ st.ledgers sym, b.date ≤ st.last_dates sym

/-! ### Corporate-action extraction (3.4_generate_adjustments.py)

parse_corporate_actions_file produces at most one event per disclosure row
(each regex branch appends once and continues) and carries the exDate CSV
field along as the raw string (line 52 reads row['exDate'] unparsed).  The
free-text regex rules are a per-row computation; runExtraction below is
parametric in that per-row computation and embeds exactly the surrounding
pipeline of run_pipeline lines 198-217: concatenate the per-symbol parses in
master-list order, and, only when at least one event parsed (the
`if not out_master.empty` guard of line 213), sort by (symbol, ex_date) with
a stable sort and overwrite the persisted event master; a corpus parsing to
zero events leaves the previously persisted master file untouched.  The
sort key compares the raw exDate strings, so it is the code-point
lexicographic string order of pandas sort_values on an object column, not
chronological date order. -/

structure Disclosure where
  subject : String
  exDate : String
  faceVal : ℚ
deriving DecidableEq, Repr

structure ActionEvent where
  symbol : String
  ex_date : String
  action_type : String
  ratio : String
deriving DecidableEq, Repr

/-- The lexicographic (symbol, ex_date) key of out_master.sort_values
(line 214): both columns hold strings, compared as strings. -/
def eventLe (e1 e2 : ActionEvent) : Bool :=
  decide (e1.symbol < e2.symbol) ||
    (e1.symbol == e2.symbol && decide (e1.ex_date ≤ e2.ex_date))

/-- The unsorted concatenation of all per-symbol parses (lines 205-209). -/
def allParsedEvents (parseRow : String → Disclosure → Option ActionEvent)
    (corpus : List (String × List Disclosure)) : List ActionEvent :=
  (corpus.map (fun p => p.2.filterMap (parseRow p.1))).flatten

/-- One extraction run, returning the persisted event master afterwards.
The prior argument is the previously persisted master: when the corpus
parses to no events, out_master is empty, the line-213 guard fails and the
master file is left as it was; otherwise the sorted parse replaces it. -/
def runExtraction (parseRow : String → Disclosure → Option ActionEvent)
    (prior : List ActionEvent) (corpus : List (String × List Disclosure)) :
    List ActionEvent :=
  if allParsedEvents parseRow corpus = [] then prior
  else sortLe eventLe (allParsedEvents parseRow corpus)

/-- Modelled from the spec's words, for comparison with eventLe only: the
chronological value of a day-first "DD-MM-YYYY" exDate string (the format
pd.to_datetime is told to expect with dayfirst=True when this very column is
reread in 4_Update_Adjustment_Prices.py line 38). -/
def specDayFirstChronoVal (s : String) : ℕ :=
  match splitOnChar '-' s.toList with
  | [dd, mm, yyyy] => digitsVal yyyy * 10000 + digitsVal mm * 100 + digitsVal dd
  | _ => 0

/-! ### Recompute gatekeepers -/

/-- The gate of 3.4_generate_adjustments.py, lines 141-196.  Mtimes are
naturals with 0 standing for a missing file, as in the get_mtime helper.
Returns whether the pipeline body runs (should_run). -/
def shouldRun34 (outputMasterExists dataDirExists : Bool)
    (latestDataMtime scriptMtime dep33Mtime masterMtime calcMtime : ℕ) : Bool :=
  if outputMasterExists && dataDirExists then
    let inputsChanged := (masterMtime < latestDataMtime) || (masterMtime < scriptMtime)
    let calcNeeded :=
      inputsChanged || (calcMtime == 0) || (calcMtime < masterMtime) ||
      (calcMtime < dep33Mtime) || (calcMtime < scriptMtime)
    calcNeeded
  else true

/-- The per-symbol gate of 4_Update_Adjustment_Prices.py, lines 69-86.
Returns should_process. -/
def shouldProcess4 (outExists : Bool) (inputMtime outputMtime adjMtime : ℕ) : Bool :=
  if outExists then
    if inputMtime < outputMtime && adjMtime < outputMtime then false else true
  else true

/-- Modelled from the spec's words, for comparison with the gates above:
every downstream artifact strictly newer than every upstream input it depends
on.  The event master depends on the disclosure data and the extraction
script; the factor file additionally on the event master and the
factor-computation script 3.3; the adjusted ledger on the raw ledger and the
factor file. -/
def specStrictlyNewer (latestDataMtime scriptMtime dep33Mtime masterMtime calcMtime
    inputMtime outputMtime : ℕ) : Prop :=
  latestDataMtime < masterMtime ∧ scriptMtime < masterMtime ∧
  masterMtime < calcMtime ∧ dep33Mtime < calcMtime ∧ scriptMtime < calcMtime ∧
  inputMtime < outputMtime ∧ calcMtime < outputMtime

/-! ### Helper lemmas: insertion sort -/

theorem insertLe_perm {α : Type} (le : α → α → Bool) (a : α) (l : List α) :
    (insertLe le a l).Perm (a :: l) := by
  induction l with
  | nil => exact List.Perm.refl _
  | cons b t ih =>
    by_cases h : le a b = true
    · simp [insertLe, h]
    · simp only [insertLe, h, if_false, Bool.false_eq_true]
      exact (ih.cons b).trans (List.Perm.swap a b t)

theorem mem_insertLe {α : Type} {le : α → α → Bool} {a x : α} {l : List α} :
    x ∈ insertLe le a l ↔ x = a ∨ x ∈ l := by
  rw [(insertLe_perm le a l).mem_iff, List.mem_cons]

theorem pairwise_insertLe {α : Type} {le : α → α → Bool}
    (htrans : ∀ x y z, le x y = true → le y z = true → le x z = true)
    (htot : ∀ x y, le x y = true ∨ le y x = true)
    (a : α) {l : List α} (h : l.Pairwise (fun x y => le x y = true)) :
    (insertLe le a l).Pairwise (fun x y => le x y = true) := by
  induction l with
  | nil => simp [insertLe]
  | cons b t ih =>
    rcases List.pairwise_cons.mp h with ⟨h1, h2⟩
    by_cases hab : le a b = true
    · simp only [insertLe, hab, if_true]
      refine List.pairwise_cons.mpr ⟨?_, h⟩
      intro x hx
      rcases List.mem_cons.mp hx with rfl | hx
      · exact hab
      · exact htrans a b x hab (h1 x hx)
    · simp only [insertLe, hab, if_false, Bool.false_eq_true]
      refine List.pairwise_cons.mpr ⟨?_, ih h2⟩
      intro x hx
      rcases mem_insertLe.mp hx with hxa | hx
      · rw [hxa]
        rcases htot a b with hab2 | hba
        · exact absurd hab2 hab
        · exact hba
      · exact h1 x hx

theorem sortLe_perm {α : Type} (le : α → α → Bool) (l : List α) :
    (sortLe le l).Perm l := by
  induction l with
  | nil => exact List.Perm.refl _
  | cons a t ih => exact (insertLe_perm le a (sortLe le t)).trans (ih.cons a)

theorem pairwise_sortLe {α : Type} {le : α → α → Bool}
    (htrans : ∀ x y z, le x y = true → le y z = true → le x z = true)
    (htot : ∀ x y, le x y = true ∨ le y x = true) (l : List α) :
    (sortLe le l).Pairwise (fun x y => le x y = true) := by
  induction l with
  | nil => simp [sortLe]
  | cons a t ih => exact pairwise_insertLe htrans htot a ih

theorem pairwise_mem_filter {α : Type} {p : α → Bool} {R S : α → α → Prop} {l : List α}
    (h : l.Pairwise R) (himp : ∀ a b, p a = true → p b = true → R a b → S a b) :
    (l.filter p).Pairwise S := by
  induction l with
  | nil => simp
  | cons x t ih =>
    rcases List.pairwise_cons.mp h with ⟨h1, h2⟩
    by_cases hx : p x = true
    · rw [List.filter_cons_of_pos hx]
      refine List.pairwise_cons.mpr ⟨?_, ih h2⟩
      intro b hb
      exact himp x b hx (List.of_mem_filter hb) (h1 b (List.mem_of_mem_filter hb))
    · rw [List.filter_cons_of_neg (by simpa using hx)]
      exact ih h2

/-! ### Helper lemmas: the adjustment loop composes multiplicatively -/

theorem scaleBar_date (m : ℚ) (b : Bar) : (scaleBar m b).date = b.date := rfl

theorem scaleBar_one (b : Bar) : scaleBar 1 b = b := by
  simp [scaleBar]

theorem scaleBar_comp (m m' : ℚ) (b : Bar) :
    scaleBar m (scaleBar m' b) = scaleBar (m' * m) b := by
  simp [scaleBar, mul_assoc, div_div]

theorem applyFactor_eq_map (led : List Bar) (f : AdjFactor) :
    applyFactor led f = led.map (fun b => scaleBar (factorMult f b.date) b) := by
  cases hf : f.ex_date with
  | none =>
    simp [applyFactor, hf, factorMult, scaleBar_one]
  | some d =>
    by_cases hany : led.any (fun b => b.date < d) = true
    · simp only [applyFactor, hf, hany, if_true]
      refine List.map_congr_left ?_
      intro b _
      by_cases hbd : b.date < d
      · simp [factorMult, hf, hbd]
      · simp [factorMult, hf, hbd, scaleBar_one]
    · have hall : ∀ b ∈ led, ¬ b.date < d := by
        intro b hb hlt
        exact hany (List.any_eq_true.mpr ⟨b, hb, by simpa using hlt⟩)
      simp only [applyFactor, hf, hany, if_false, Bool.false_eq_true]
      symm
      calc led.map (fun b => scaleBar (factorMult f b.date) b)
          = led.map (fun b => b) :=
            List.map_congr_left (fun b hb => by
              simp [factorMult, hf, hall b hb, scaleBar_one])
        _ = led := List.map_id' led

theorem effMult_nil (d : ℕ) : effMult [] d = 1 := rfl

theorem effMult_cons (f : AdjFactor) (fs : List AdjFactor) (d : ℕ) :
    effMult (f :: fs) d = factorMult f d * effMult fs d := by
  cases hf : f.ex_date with
  | none => simp [effMult, factorMult, hf]
  | some e =>
    by_cases hde : d < e
    · simp [effMult, factorMult, hf, hde]
    · simp [effMult, factorMult, hf, hde]

theorem adjustLedger_eq_map (factors : List AdjFactor) (led : List Bar) :
    adjustLedger factors led = led.map (fun b => scaleBar (effMult factors b.date) b) := by
  induction factors generalizing led with
  | nil =>
    simp [adjustLedger, effMult_nil, scaleBar_one]
  | cons f fs ih =>
    have h1 : adjustLedger (f :: fs) led = adjustLedger fs (applyFactor led f) := rfl
    rw [h1, ih (applyFactor led f), applyFactor_eq_map, List.map_map]
    refine List.map_congr_left ?_
    intro b _
    show scaleBar (effMult fs (scaleBar (factorMult f b.date) b).date)
        (scaleBar (factorMult f b.date) b) = _
    rw [scaleBar_date, scaleBar_comp, ← effMult_cons]

theorem effMult_eq_one {factors : List AdjFactor} {d : ℕ}
    (h : ∀ f ∈ factors, ∀ e, f.ex_date = some e → e ≤ d) : effMult factors d = 1 := by
  induction factors with
  | nil => rfl
  | cons f fs ih =>
    rw [effMult_cons, ih (fun g hg => h g (List.mem_cons_of_mem f hg))]
    have hd : factorMult f d = 1 := by
      cases hf : f.ex_date with
      | none => simp [factorMult, hf]
      | some e =>
        have := h f (List.mem_cons_self f fs) e hf
        simp [factorMult, hf]
        omega
    rw [hd, one_mul]

/-! ### Helper lemmas: ingestion -/

theorem ingestRow_last_dates_eq (d : ℕ) (st : IngestState) (r : InRow) (sym : String) :
    (ingestRow d st r).last_dates sym =
      if st.last_dates r.symbol < d then
        (if sym = r.symbol then d else st.last_dates sym)
      else st.last_dates sym := by
  unfold ingestRow
  by_cases hc : st.last_dates r.symbol < d
  · rw [if_pos hc, if_pos hc]
  · rw [if_neg hc, if_neg hc]

theorem ingestRow_ledgers_eq (d : ℕ) (st : IngestState) (r : InRow) (sym : String) :
    (ingestRow d st r).ledgers sym =
      if st.last_dates r.symbol < d then
        (if sym = r.symbol then st.ledgers sym ++ [⟨d, r.close_price⟩] else st.ledgers sym)
      else st.ledgers sym := by
  unfold ingestRow
  by_cases hc : st.last_dates r.symbol < d
  · rw [if_pos hc, if_pos hc]
  · rw [if_neg hc, if_neg hc]

theorem ingestRow_last_mono (d : ℕ) (st : IngestState) (r : InRow) (sym : String) :
    st.last_dates sym ≤ (ingestRow d st r).last_dates sym := by
  rw [ingestRow_last_dates_eq]
  by_cases hc : st.last_dates r.symbol < d
  · rw [if_pos hc]
    by_cases hs : sym = r.symbol
    · rw [if_pos hs, hs]
      omega
    · rw [if_neg hs]
  · rw [if_neg hc]

theorem foldl_ingestRow_last_mono (d : ℕ) (rows : List InRow) (st : IngestState)
    (sym : String) :
    st.last_dates sym ≤ (rows.foldl (ingestRow d) st).last_dates sym := by
  induction rows generalizing st with
  | nil => exact le_refl _
  | cons r t ih =>
    exact (ingestRow_last_mono d st r sym).trans (ih (ingestRow d st r))

theorem ingestRow_last_ge (d : ℕ) (st : IngestState) (r : InRow) :
    d ≤ (ingestRow d st r).last_dates r.symbol := by
  rw [ingestRow_last_dates_eq]
  by_cases hc : st.last_dates r.symbol < d
  · rw [if_pos hc, if_pos rfl]
  · rw [if_neg hc]
    omega

theorem foldl_ingestRow_ge (d : ℕ) (rows : List InRow) (st : IngestState) :
    ∀ r ∈ rows, d ≤ (rows.foldl (ingestRow d) st).last_dates r.symbol := by
  induction rows generalizing st with
  | nil => simp
  | cons r0 t ih =>
    intro r hr
    rcases List.mem_cons.mp hr with hr0 | hr
    · rw [List.foldl_cons, hr0]
      exact (ingestRow_last_ge d st r0).trans
        (foldl_ingestRow_last_mono d t (ingestRow d st r0) r0.symbol)
    · exact ih (ingestRow d st r0) r hr

theorem foldl_ingestRow_id (d : ℕ) (rows : List InRow) (st : IngestState)
    (h : ∀ r ∈ rows, d ≤ st.last_dates r.symbol) :
    rows.foldl (ingestRow d) st = st := by
  induction rows with
  | nil => rfl
  | cons r t ih =>
    have hr : ingestRow d st r = st := by
      unfold ingestRow
      rw [if_neg]
      have := h r (List.mem_cons_self r t)
      omega
    rw [List.foldl_cons, hr]
    exact ih (fun x hx => h x (List.mem_cons_of_mem r hx))

theorem ingestRow_inv (d : ℕ) (st : IngestState) (r : InRow) (h : LedgerInv st) :
    LedgerInv (ingestRow d st r) := by
  intro sym
  rw [ingestRow_ledgers_eq, ingestRow_last_dates_eq]
  by_cases hc : st.last_dates r.symbol < d
  · rw [if_pos hc, if_pos hc]
    by_cases hs : sym = r.symbol
    · rw [if_pos hs, if_pos hs]
      constructor
      · rw [List.map_append, List.pairwise_append]
        refine ⟨(h sym).1, by simp, ?_⟩
        intro x hx y hy
        simp only [List.map_cons, List.map_nil, List.mem_singleton] at hy
        subst hy
        rcases List.mem_map.mp hx with ⟨row, hrow, hval⟩
        have h2 := (h sym).2 row hrow
        rw [hs] at h2
        omega
      · intro b hb
        rcases List.mem_append.mp hb with hb | hb
        · have h2 := (h sym).2 b hb
          rw [hs] at h2
          omega
        · simp only [List.mem_singleton] at hb
          subst hb
          exact Nat.le_refl d
    · rw [if_neg hs, if_neg hs]
      exact h sym
  · rw [if_neg hc, if_neg hc]
    exact h sym

theorem foldl_ingestRow_inv (d : ℕ) (rows : List InRow) (st : IngestState)
    (h : LedgerInv st) : LedgerInv (rows.foldl (ingestRow d) st) := by
  induction rows generalizing st with
  | nil => exact h
  | cons r t ih =>
    rw [List.foldl_cons]
    exact ih (ingestRow d st r) (ingestRow_inv d st r h)

theorem ingestFile_inv (tracked : List String) (st : IngestState) (d : ℕ)
    (rows : List InRow) (h : LedgerInv st) : LedgerInv (ingestFile tracked st d rows) :=
  foldl_ingestRow_inv d _ st h

theorem ingestFiles_inv (tracked : List String) (st : IngestState)
    (files : List (ℕ × List InRow)) (h : LedgerInv st) :
    LedgerInv (ingestFiles tracked st files) := by
  unfold ingestFiles
  induction files generalizing st with
  | nil => exact h
  | cons f t ih =>
    rw [List.foldl_cons]
    exact ih (ingestFile tracked st f.1 f.2) (ingestFile_inv tracked st f.1 f.2 h)

theorem ingestFiles_last_mono (tracked : List String) (st : IngestState)
    (files : List (ℕ × List InRow)) (sym : String) :
    st.last_dates sym ≤ (ingestFiles tracked st files).last_dates sym := by
  unfold ingestFiles
  induction files generalizing st with
  | nil => exact le_refl _
  | cons f t ih =>
    rw [List.foldl_cons]
    exact (foldl_ingestRow_last_mono f.1 _ st sym).trans (ih (ingestFile tracked st f.1 f.2))

/-! ### Helper lemmas: the extraction sort key -/

theorem eventLe_trans (x y z : ActionEvent) (hxy : eventLe x y = true)
    (hyz : eventLe y z = true) : eventLe x z = true := by
  unfold eventLe at *
  simp only [Bool.or_eq_true, Bool.and_eq_true, decide_eq_true_eq, beq_iff_eq] at *
  rcases hxy with hxy | ⟨hxy, hxy2⟩ <;> rcases hyz with hyz | ⟨hyz, hyz2⟩
  · exact Or.inl (lt_trans hxy hyz)
  · exact Or.inl (by rw [← hyz]; exact hxy)
  · exact Or.inl (by rw [hxy]; exact hyz)
  · exact Or.inr ⟨hxy.trans hyz, le_trans hxy2 hyz2⟩

theorem eventLe_total (x y : ActionEvent) : eventLe x y = true ∨ eventLe y x = true := by
  unfold eventLe
  simp only [Bool.or_eq_true, Bool.and_eq_true, decide_eq_true_eq, beq_iff_eq]
  rcases lt_trichotomy x.symbol y.symbol with h | h | h
  · exact Or.inl (Or.inl h)
  · rcases le_total x.ex_date y.ex_date with hd | hd
    · exact Or.inl (Or.inr ⟨h, hd⟩)
    · exact Or.inr (Or.inr ⟨h.symm, hd⟩)
  · exact Or.inr (Or.inl h)

/-! ### Claim theorems -/

/-- Claim C1: the Backward Adjustment Applier scales every raw Bar's
open/high/low/close by the product of exactly those price_multipliers whose
ex_date is strictly greater than the Bar's date (effMult); in particular,
with two events at ex_dates e1 < e2 carrying multipliers m1, m2, a Bar dated
before e1 is scaled by m1*m2, a Bar dated strictly between them by m2 only,
and a Bar dated on or after e2 is unscaled. -/
theorem C1_adjustment_composition :
    (∀ (factors : List AdjFactor) (led : List Bar),
      adjustLedger factors led = led.map (fun b => scaleBar (effMult factors b.date) b)) ∧
    (∀ (e1 e2 : ℕ) (m1 m2 : ℚ) (d : ℕ), e1 < e2 →
      (d < e1 → effMult [⟨some e1, m1⟩, ⟨some e2, m2⟩] d = m1 * m2) ∧
      (e1 ≤ d → d < e2 → effMult [⟨some e1, m1⟩, ⟨some e2, m2⟩] d = m2) ∧
      (e2 ≤ d → effMult [⟨some e1, m1⟩, ⟨some e2, m2⟩] d = 1)) := by
  refine ⟨adjustLedger_eq_map, ?_⟩
  intro e1 e2 m1 m2 d h12
  refine ⟨?_, ?_, ?_⟩
  · intro h1
    have h2 : d < e2 := lt_trans h1 h12
    simp [effMult, h1, h2]
  · intro h1 h2
    simp [effMult, h2, show ¬ d < e1 by omega]
  · intro h2
    simp [effMult, show ¬ d < e1 by omega, show ¬ d < e2 by omega]

/-- Witness for C1 at concrete inputs. -/
theorem C1_adjustment_composition_witness :
    adjustLedger [⟨some 20, 1/10⟩] [⟨5, 100, 110, 90, 100, 1000⟩] =
      [⟨5, 100, 110, 90, 100, 1000⟩].map
        (fun b => scaleBar (effMult [⟨some 20, 1/10⟩] b.date) b) ∧
    effMult [⟨some 10, 1/2⟩, ⟨some 20, 1/10⟩] 5 = (1/2) * (1/10) ∧
    effMult [⟨some 10, 1/2⟩, ⟨some 20, 1/10⟩] 15 = 1/10 ∧
    effMult [⟨some 10, 1/2⟩, ⟨some 20, 1/10⟩] 25 = 1 := by
  obtain ⟨h1, h2⟩ := C1_adjustment_composition
  have h3 := h2 10 20 (1/2) (1/10)
  exact ⟨h1 _ _, (h3 5 (by decide)).1 (by decide),
    (h3 15 (by decide)).2.1 (by decide) (by decide), (h3 25 (by decide)).2.2 (by decide)⟩

/-- Claim C2: running the Backward Adjustment Applier twice with the raw
ledger and the factor file unchanged between the runs leaves the adjusted
ledger identical to its state after the first run, whatever state preceded
the first run and whatever the two runs' clock times; the recomputation
reads only the raw ledger and the factor set, never its own prior output. -/
theorem C2_applier_idempotent (raw : List Bar) (factors : List AdjFactor)
    (raw_mtime adj_mtime n1 n2 : ℕ) (st : Option ApplierRun) :
    (applierStep raw factors raw_mtime adj_mtime n2
        (some (applierStep raw factors raw_mtime adj_mtime n1 st))).ledger =
      (applierStep raw factors raw_mtime adj_mtime n1 st).ledger := by
  cases st with
  | none =>
    simp only [applierStep]
    by_cases h : raw_mtime < n1 ∧ adj_mtime < n1
    · rw [if_pos h]
    · rw [if_neg h]
  | some s =>
    by_cases h : raw_mtime < s.out_mtime ∧ adj_mtime < s.out_mtime
    · have h1 : applierStep raw factors raw_mtime adj_mtime n1 (some s) = s := by
        simp only [applierStep]
        rw [if_pos h]
      rw [h1]
      simp only [applierStep]
      rw [if_pos h]
    · have h1 : applierStep raw factors raw_mtime adj_mtime n1 (some s) =
          ⟨update_adjustment_prices_symbol factors raw, n1⟩ := by
        simp only [applierStep]
        rw [if_neg h]
      rw [h1]
      simp only [applierStep]
      by_cases h2 : raw_mtime < n1 ∧ adj_mtime < n1
      · rw [if_pos h2]
      · rw [if_neg h2]

/-- Claim C3 counterexample: the applier does not copy a no-factor symbol
through unchanged; the unconditional 2-decimal price rounding of lines
158-160 alters a raw close of 10.006. -/
theorem C3_counterexample :
    update_adjustment_prices_symbol []
        [⟨0, 10006/1000, 10006/1000, 10006/1000, 10006/1000, 1000⟩] ≠
      [⟨0, 10006/1000, 10006/1000, 10006/1000, 10006/1000, 1000⟩] := by
  have hr : round2 (10006/1000) = 1001/100 := by
    have hf : ⌊(10006/1000 : ℚ) * 100⌋ = 1000 := by norm_num
    simp only [round2]
    rw [hf]
    norm_num
  intro h
  have h2 := congrArg (fun l : List Bar => l.head?) h
  simp only [update_adjustment_prices_symbol, sortLe, insertLe, adjustLedger,
    List.foldl_nil, List.map_cons, List.map_nil, roundBar, List.head?,
    Option.some.injEq] at h2
  rw [hr] at h2
  have h3 := congrArg Bar.close_price h2
  norm_num at h3

/-- Claim C3 (amended): for every symbol the applier writes the raw ledger
sorted by date, each bar scaled by the product of the factors whose ex_date
exceeds its date and its prices rounded to two decimals; hence a bar dated
on/after every ex_date is written unchanged except for that rounding, and a
no-factor symbol's ledger is copied through with only the rounding (so it is
identical to the raw ledger exactly when raw prices already have at most two
decimals and the raw ledger is date-sorted). -/
theorem C3_frame_amended :
    ∀ (factors : List AdjFactor) (raw : List Bar),
      update_adjustment_prices_symbol factors raw =
        (sortLe barDateLe raw).map (fun b => roundBar (scaleBar (effMult factors b.date) b)) ∧
      (∀ b : Bar, (∀ f ∈ factors, ∀ e, f.ex_date = some e → e ≤ b.date) →
        roundBar (scaleBar (effMult factors b.date) b) = roundBar b) ∧
      update_adjustment_prices_symbol [] raw = (sortLe barDateLe raw).map roundBar := by
  intro factors raw
  refine ⟨?_, ?_, rfl⟩
  · unfold update_adjustment_prices_symbol
    rw [adjustLedger_eq_map, List.map_map]
    rfl
  · intro b hb
    rw [effMult_eq_one hb, scaleBar_one]

/-- Witness for C3 (amended) at concrete inputs. -/
theorem C3_frame_amended_witness :
    update_adjustment_prices_symbol [⟨some 10, 1/2⟩] [⟨15, 100, 110, 90, 100, 1000⟩] =
      (sortLe barDateLe [⟨15, 100, 110, 90, 100, 1000⟩]).map
        (fun b => roundBar (scaleBar (effMult [⟨some 10, 1/2⟩] b.date) b)) ∧
    roundBar (scaleBar (effMult [⟨some 10, 1/2⟩] (Bar.date ⟨15, 100, 110, 90, 100, 1000⟩))
        ⟨15, 100, 110, 90, 100, 1000⟩) = roundBar ⟨15, 100, 110, 90, 100, 1000⟩ ∧
    update_adjustment_prices_symbol [] [⟨15, 100, 110, 90, 100, 1000⟩] =
      (sortLe barDateLe [⟨15, 100, 110, 90, 100, 1000⟩]).map roundBar := by
  obtain ⟨h1, h2, h3⟩ :=
    C3_frame_amended [⟨some 10, 1/2⟩] [⟨15, 100, 110, 90, 100, 1000⟩]
  refine ⟨h1, ?_, h3⟩
  refine h2 ⟨15, 100, 110, 90, 100, 1000⟩ ?_
  intro f hf e he
  rw [List.mem_singleton] at hf
  subst hf
  simp only [Option.some.injEq] at he
  show e ≤ 15
  omega

/-- Claim C4: for every symbol and every sequence of ingestion calls, the
per-symbol ledger holds at most one Bar per date — dates strictly increase
along the file because a row is appended only when its date strictly exceeds
the recorded last date — and the recorded last date never decreases. -/
theorem C4_no_duplicate_dates (tracked : List String) (st : IngestState)
    (files : List (ℕ × List InRow)) (h : LedgerInv st) :
    LedgerInv (ingestFiles tracked st files) ∧
    (∀ sym, st.last_dates sym ≤ (ingestFiles tracked st files).last_dates sym) ∧
    (∀ sym, (((ingestFiles tracked st files).ledgers sym).map LedgerRow.date).Nodup) := by
  refine ⟨ingestFiles_inv tracked st files h,
    fun sym => ingestFiles_last_mono tracked st files sym, ?_⟩
  intro sym
  have hp := (ingestFiles_inv tracked st files h sym).1
  exact hp.nodup

/-- Witness for C4: two daily files ingested into an empty store. -/
theorem C4_no_duplicate_dates_witness :
    LedgerInv (ingestFiles ["X"] ⟨fun _ => 0, fun _ => []⟩
      [(1, [⟨"X", "EQ", 5⟩]), (2, [⟨"X", "EQ", 6⟩])]) ∧
    (∀ sym, (⟨fun _ => 0, fun _ => []⟩ : IngestState).last_dates sym ≤
      (ingestFiles ["X"] ⟨fun _ => 0, fun _ => []⟩
        [(1, [⟨"X", "EQ", 5⟩]), (2, [⟨"X", "EQ", 6⟩])]).last_dates sym) ∧
    (∀ sym, (((ingestFiles ["X"] ⟨fun _ => 0, fun _ => []⟩
      [(1, [⟨"X", "EQ", 5⟩]), (2, [⟨"X", "EQ", 6⟩])]).ledgers sym).map
        LedgerRow.date).Nodup) :=
  C4_no_duplicate_dates ["X"] ⟨fun _ => 0, fun _ => []⟩
    [(1, [⟨"X", "EQ", 5⟩]), (2, [⟨"X", "EQ", 6⟩])]
    (fun _ => ⟨List.Pairwise.nil, by simp⟩)

/-- Claim C5: ingestion is idempotent — applying the same daily file a second
time appends nothing and leaves the ledger state (all per-symbol files and
recorded last dates) identical to applying it once. -/
theorem C5_ingest_idempotent (tracked : List String) (st : IngestState) (d : ℕ)
    (rows : List InRow) :
    ingestFile tracked (ingestFile tracked st d rows) d rows =
      ingestFile tracked st d rows := by
  unfold ingestFile
  apply foldl_ingestRow_id
  intro r hr
  exact foldl_ingestRow_ge d _ st r hr

/-- Claim C6: the RIGHTS factor formula — for a parsed ratio (A, B) with A
rights shares offered and B held, issue price R and reference price P,
price_multiplier = ((B*P + A*R)/(A+B))/P; in particular the 1:14 rights at
issue price 530 against market price 735 yields a multiplier within 1e-4 of
0.9814. -/
theorem C6_rights_formula :
    ∀ (s : String) (A B R P : ℚ), parse_ratio s = some (A, B) → A ≠ 0 → B ≠ 0 →
      (∃ res, calculate_rights s R P = some res ∧
        res.price_multiplier = ((B * P + A * R) / (A + B)) / P) ∧
      (∃ res, calculate_rights "1:14" 530 735 = some res ∧
        |res.price_multiplier - 9814/10000| < 1/10000) := by
  intro s A B R P hparse hA hB
  constructor
  · have hcalc : calculate_rights s R P =
        some ⟨((B * P + A * R) / (B + A)) / P, (B + A) / B, (B * P + A * R) / (B + A)⟩ := by
      simp only [calculate_rights, hparse]
      rw [if_neg (fun hor => hor.elim hA hB)]
    refine ⟨_, hcalc, ?_⟩
    rw [add_comm B A]
  · have hp : parse_ratio "1:14" = some (1, 14) := by
      simp [parse_ratio, parseFloatChars, splitOnChar, digitsVal, stripChars]
    have hcalc : calculate_rights "1:14" 530 735 =
        some ⟨((14 * 735 + 1 * 530) / (14 + 1)) / 735, (14 + 1) / 14,
          (14 * 735 + 1 * 530) / (14 + 1)⟩ := by
      simp only [calculate_rights, hp]
      rw [if_neg (by norm_num : ¬ ((1 : ℚ) = 0 ∨ (14 : ℚ) = 0))]
    refine ⟨_, hcalc, ?_⟩
    rw [abs_sub_lt_iff]
    constructor <;> norm_num

/-- Witness for C6 at the concrete 1:14 rights issue. -/
theorem C6_rights_formula_witness :
    (∃ res, calculate_rights "1:14" 530 735 = some res ∧
      res.price_multiplier = (((14 : ℚ) * 735 + 1 * 530) / (1 + 14)) / 735) ∧
    (∃ res, calculate_rights "1:14" 530 735 = some res ∧
      |res.price_multiplier - 9814/10000| < 1/10000) :=
  C6_rights_formula "1:14" 1 14 530 735
    (by simp [parse_ratio, parseFloatChars, splitOnChar, digitsVal, stripChars])
    (by norm_num) (by norm_num)

/-- Claim C7: for every parsed ratio (a, b) with positive components,
calculate_split returns price_multiplier a/b and qty_multiplier b/a, and
calculate_bonus (a bonus shares per b held) returns price_multiplier
b/(a+b); in particular 1:10 gives split multipliers 0.1 and 10.0 and 1:1
gives bonus multiplier 0.5. -/
theorem C7_split_bonus_formulas :
    ∀ (s : String) (a b : ℚ), parse_ratio s = some (a, b) → 0 < a → 0 < b →
      calculate_split s = some ⟨a / b, b / a⟩ ∧
      calculate_bonus s = some ⟨b / (a + b), (a + b) / b⟩ ∧
      calculate_split "1:10" = some ⟨1/10, 10⟩ ∧
      calculate_bonus "1:1" = some ⟨1/2, 2⟩ := by
  intro s a b hparse ha hb
  refine ⟨?_, ?_, ?_, ?_⟩
  · simp only [calculate_split, hparse]
    rw [if_neg (fun hor => hor.elim (fun h0 => (ne_of_gt ha) h0) (fun h0 => (ne_of_gt hb) h0))]
  · simp only [calculate_bonus, hparse]
    rw [if_neg (fun hor => hor.elim (fun h0 => (ne_of_gt ha) h0) (fun h0 => (ne_of_gt hb) h0)),
      add_comm b a]
  · have hp : parse_ratio "1:10" = some (1, 10) := by
      simp [parse_ratio, parseFloatChars, splitOnChar, digitsVal, stripChars]
    simp only [calculate_split, hp]
    rw [if_neg (by norm_num : ¬ ((1 : ℚ) = 0 ∨ (10 : ℚ) = 0))]
    norm_num [CAResult.mk.injEq]
  · have hp : parse_ratio "1:1" = some (1, 1) := by
      simp [parse_ratio, parseFloatChars, splitOnChar, digitsVal, stripChars]
    simp only [calculate_bonus, hp]
    rw [if_neg (by norm_num : ¬ ((1 : ℚ) = 0 ∨ (1 : ℚ) = 0))]
    norm_num [CAResult.mk.injEq]

/-- Witness for C7 at the concrete 1:10 ratio. -/
theorem C7_split_bonus_formulas_witness :
    calculate_split "1:10" = some ⟨(1 : ℚ) / 10, 10 / 1⟩ ∧
    calculate_bonus "1:10" = some ⟨(10 : ℚ) / (1 + 10), (1 + 10) / 10⟩ ∧
    calculate_split "1:10" = some ⟨1/10, 10⟩ ∧
    calculate_bonus "1:1" = some ⟨1/2, 2⟩ :=
  C7_split_bonus_formulas "1:10" 1 10
    (by simp [parse_ratio, parseFloatChars, splitOnChar, digitsVal, stripChars])
    (by norm_num) (by norm_num)

/-- Claim C8 counterexample: the claim fails twice on the code.  First, the
sort of line 214 orders the raw day-first exDate strings lexicographically,
which is not chronological: a corpus whose two disclosures for one symbol
carry exDates "01-02-2020" (1 Feb 2020) and "30-01-2020" (30 Jan 2020) is
written in that string order, i.e. chronologically descending.  Second, with
a prior persisted master and a corpus parsing to zero events, the line-213
guard preserves the prior master, so the written event list is not
independent of prior state. -/
theorem C8_counterexample :
    runExtraction (fun sym d => some ⟨sym, d.exDate, "BONUS", "1:1"⟩) []
        [("X", [⟨"s1", "01-02-2020", 10⟩, ⟨"s2", "30-01-2020", 10⟩])] =
      [⟨"X", "01-02-2020", "BONUS", "1:1"⟩, ⟨"X", "30-01-2020", "BONUS", "1:1"⟩] ∧
    specDayFirstChronoVal "30-01-2020" < specDayFirstChronoVal "01-02-2020" ∧
    runExtraction (fun _ _ => none) [⟨"X", "01-02-2020", "BONUS", "1:1"⟩]
        [("X", [⟨"s1", "01-02-2020", 10⟩])] ≠
      runExtraction (fun _ _ => none) [] [("X", [⟨"s1", "01-02-2020", 10⟩])] := by
  refine ⟨?_, by decide, by simp [runExtraction, allParsedEvents]⟩
  simp only [runExtraction, allParsedEvents, List.filterMap, List.map, List.flatten,
    List.append_nil, sortLe, insertLe, eventLe]
  norm_num
  decide

/-- Claim C8 (amended): when the corpus parses to at least one event, the
written event set is the concatenation of all per-row parses sorted
ascending by symbol and then by the raw exDate string under code-point
lexicographic order (chronological only insofar as that string order agrees
with date order), and it is independent of extraction order and prior state;
a corpus parsing to zero events leaves the previously persisted event master
unchanged. -/
theorem C8_extraction_amended
    (parseRow : String → Disclosure → Option ActionEvent)
    (prior prior' : List ActionEvent) (corpus : List (String × List Disclosure)) :
    (allParsedEvents parseRow corpus ≠ [] →
      runExtraction parseRow prior corpus = runExtraction parseRow prior' corpus ∧
      (runExtraction parseRow prior corpus).Perm (allParsedEvents parseRow corpus) ∧
      ∀ sym, ((runExtraction parseRow prior corpus).filter
        (fun e => e.symbol == sym)).Pairwise (fun e1 e2 => e1.ex_date ≤ e2.ex_date)) ∧
    (allParsedEvents parseRow corpus = [] → runExtraction parseRow prior corpus = prior) := by
  constructor
  · intro hne
    have hrun : ∀ p : List ActionEvent, runExtraction parseRow p corpus =
        sortLe eventLe (allParsedEvents parseRow corpus) := by
      intro p
      unfold runExtraction
      rw [if_neg hne]
    refine ⟨by rw [hrun prior, hrun prior'], ?_, ?_⟩
    · rw [hrun prior]
      exact sortLe_perm eventLe (allParsedEvents parseRow corpus)
    · intro sym
      rw [hrun prior]
      have hp := pairwise_sortLe eventLe_trans eventLe_total (allParsedEvents parseRow corpus)
      refine pairwise_mem_filter hp ?_
      intro x y hx hy hxy
      have hxs : x.symbol = sym := by simpa using hx
      have hys : y.symbol = sym := by simpa using hy
      unfold eventLe at hxy
      simp only [Bool.or_eq_true, Bool.and_eq_true, decide_eq_true_eq, beq_iff_eq] at hxy
      rcases hxy with hlt | ⟨heq, hle⟩
      · rw [hxs, hys] at hlt
        exact absurd hlt (lt_irrefl sym)
      · exact hle
  · intro he
    unfold runExtraction
    rw [if_pos he]

/-- Witness for C8 (amended): a one-event corpus for the nonempty branch and
a zero-event parse preserving a prior master for the empty branch. -/
theorem C8_extraction_amended_witness :
    (runExtraction (fun sym d => some ⟨sym, d.exDate, "BONUS", "1:1"⟩) []
        [("X", [⟨"s", "01-01-2020", 10⟩])] =
      runExtraction (fun sym d => some ⟨sym, d.exDate, "BONUS", "1:1"⟩)
        [⟨"Z", "09-09-2009", "SPLIT", "1:2"⟩] [("X", [⟨"s", "01-01-2020", 10⟩])] ∧
      (runExtraction (fun sym d => some ⟨sym, d.exDate, "BONUS", "1:1"⟩) []
        [("X", [⟨"s", "01-01-2020", 10⟩])]).Perm
        (allParsedEvents (fun sym d => some ⟨sym, d.exDate, "BONUS", "1:1"⟩)
          [("X", [⟨"s", "01-01-2020", 10⟩])]) ∧
      ∀ sym, ((runExtraction (fun sym d => some ⟨sym, d.exDate, "BONUS", "1:1"⟩) []
        [("X", [⟨"s", "01-01-2020", 10⟩])]).filter
          (fun e => e.symbol == sym)).Pairwise (fun e1 e2 => e1.ex_date ≤ e2.ex_date)) ∧
    runExtraction (fun _ _ => none) [⟨"Z", "09-09-2009", "SPLIT", "1:2"⟩]
        [("X", [⟨"s", "01-01-2020", 10⟩])] =
      [⟨"Z", "09-09-2009", "SPLIT", "1:2"⟩] := by
  refine ⟨(C8_extraction_amended (fun sym d => some ⟨sym, d.exDate, "BONUS", "1:1"⟩)
      [] [⟨"Z", "09-09-2009", "SPLIT", "1:2"⟩] [("X", [⟨"s", "01-01-2020", 10⟩])]).1 ?_,
    (C8_extraction_amended (fun _ _ => none) [⟨"Z", "09-09-2009", "SPLIT", "1:2"⟩]
      [] [("X", [⟨"s", "01-01-2020", 10⟩])]).2 ?_⟩
  · simp [allParsedEvents]
  · simp [allParsedEvents]

/-- Claim C9 counterexample: with the parsed event master exactly as old as
the newest disclosure file (equal mtimes, both 5) and everything downstream
fresh, both gates skip although the master is not strictly newer than its
input, so the skip condition is not "strictly newer" throughout. -/
theorem C9_counterexample :
    shouldRun34 true true 5 1 1 5 9 = false ∧
    shouldProcess4 true 0 10 9 = false ∧
    ¬ specStrictlyNewer 5 1 1 5 9 0 10 := by
  refine ⟨rfl, rfl, ?_⟩
  intro h
  exact absurd h.1 (lt_irrefl 5)

/-- Claim C9 (amended): the 3.4 gate skips exactly when the event master and
the factor file exist (calc mtime nonzero) and each is at least as new (≥,
not strictly newer) as everything it depends on; only the step-4 adjusted
ledger gate requires its output to be strictly newer than its inputs. -/
theorem C9_gatekeeper_amended :
    ∀ (ome dde oe : Bool) (ld s d33 m c i o a : ℕ),
      (shouldRun34 ome dde ld s d33 m c = false ↔
        (ome = true ∧ dde = true ∧ ld ≤ m ∧ s ≤ m ∧ c ≠ 0 ∧ m ≤ c ∧ d33 ≤ c ∧ s ≤ c)) ∧
      (shouldProcess4 oe i o a = false ↔ (oe = true ∧ i < o ∧ a < o)) := by
  intro ome dde oe ld s d33 m c i o a
  constructor
  · cases ome <;> cases dde <;> simp [shouldRun34] <;> omega
  · cases oe <;> simp [shouldProcess4] <;> omega

/-- Claim C10 counterexample: the string "1:2:3" is not of the form "A:B"
with two numeric parts, yet parse_ratio accepts its first two fields and both
calculators return non-empty results rather than the empty one. -/
theorem C10_counterexample :
    ratioHasTwoNumericParts "1:2:3" = false ∧
    calculate_split "1:2:3" = some ⟨1/2, 2⟩ ∧
    calculate_bonus "1:2:3" = some ⟨2/3, 3/2⟩ := by
  have hp : parse_ratio "1:2:3" = some (1, 2) := by
    simp [parse_ratio, parseFloatChars, splitOnChar, digitsVal, stripChars]
  refine ⟨rfl, ?_, ?_⟩
  · simp only [calculate_split, hp]
    rw [if_neg (by norm_num : ¬ ((1 : ℚ) = 0 ∨ (2 : ℚ) = 0))]
    norm_num [CAResult.mk.injEq]
  · simp only [calculate_bonus, hp]
    rw [if_neg (by norm_num : ¬ ((1 : ℚ) = 0 ∨ (2 : ℚ) = 0))]
    norm_num [CAResult.mk.injEq]

/-- Claim C10 (amended): for every ratio string on which parse_ratio fails
(fewer than two colon-separated fields, or a first or second field that is
not a number) or parses a zero first or second component, calculate_split and
calculate_bonus return the empty result instead of raising, so no division by
zero occurs and no factor is emitted; colon-separated fields beyond the
second are ignored rather than rejected. -/
theorem C10_guard_amended :
    ∀ s : String,
      (parse_ratio s = none ∨ ∃ a b : ℚ, parse_ratio s = some (a, b) ∧ (a = 0 ∨ b = 0)) →
      calculate_split s = none ∧ calculate_bonus s = none := by
  intro s h
  rcases h with h | ⟨a, b, hp, hz⟩
  · constructor <;> simp [calculate_split, calculate_bonus, h]
  · constructor
    · simp only [calculate_split, hp]
      rw [if_pos hz]
    · simp only [calculate_bonus, hp]
      rw [if_pos hz]

/-- Witness for C10 (amended) at the zero-component ratio "1:0". -/
theorem C10_guard_amended_witness :
    calculate_split "1:0" = none ∧ calculate_bonus "1:0" = none :=
  C10_guard_amended "1:0"
    (Or.inr ⟨1, 0,
      by simp [parse_ratio, parseFloatChars, splitOnChar, digitsVal, stripChars],
      Or.inr rfl⟩)
